import Mathlib

/-!
# Verification of the bubbles textarea editing core

A shallow embedding, in Lean 4, of the multi-line text-editing core of the
repository: the soft-wrap algorithm (`wrap` in `src/textarea/textarea.go`),
the LRU memoization cache (`src/textarea/memoization/memoization.go`), and
the buffer / cursor model of the textarea (`src/textarea/textarea.go`).

Modelling conventions:

* Go `[]rune` becomes `List α`.  The soft-wrap algorithm only observes a rune
  through `unicode.IsSpace` and its display width (`go-runewidth` /
  `uniseg`), so `wrap` is embedded parametrically in the rune type `R`
  together with the two observation functions `isSpace : R → Bool` and
  `rwidth : R → Nat`, and the canonical space character `sp : R` that
  `repeatSpaces` emits.  The concrete instantiation used by the repository
  (`Char` together with `goIsSpace` / `displayWidth` below) is also defined.
* `uniseg.StringWidth` is modelled as the sum of the per-rune display widths
  (`strWidth`); this agrees with the library on text without grapheme
  clustering.
* Go `int` quantities that are non-negative in every reachable state
  (cursor row and column, widths, counts) are modelled as `Nat`.  Where the
  Go code makes a transiently negative intermediate (`li.StartColumn - 2` in
  `CursorUp`, `len(...)-1` in `CursorDown`), truncated `Nat` subtraction is
  used; for wrap widths ≥ 1 every visual sub-line is non-empty, and the
  subsequent `LineInfo` pass yields the same cursor position either way.
* The external SHA-256 fingerprint of cache keys is collision-free on every
  input that the repository feeds it (spec §4.1: two distinct cache keys are
  never conflated), so the cache is modelled as keyed directly by the key.
-/

namespace Bubbles

/-! ## The soft-wrap algorithm (`wrap`, textarea.go lines 1333–1394) -/

/-- `uniseg.StringWidth`: display width of a rune sequence, modelled as the
sum of per-rune display widths. -/
def strWidth {R : Type} (rwidth : R → Nat) (rs : List R) : Nat :=
  (rs.map rwidth).sum

/-- `repeatSpaces` (textarea.go line 1396): `n` copies of the literal space
character. -/
def repeatSpaces {R : Type} (sp : R) (n : Nat) : List R :=
  List.replicate n sp

/-- The loop state of `wrap`: in the Go code `lines`/`row` always keep the
current (last) row at index `row = len(lines)-1`, so the state is split into
the finished rows `done`, the current row `cur`, the pending word `word` and
the pending space count `spaces`. -/
structure WrapSt (R : Type) where
  done : List (List R)
  cur : List R
  word : List R
  spaces : Nat

/-- One iteration of the scanning loop of `wrap` (textarea.go lines
1342–1378). -/
def wrapStep {R : Type} (isSpace : R → Bool) (rwidth : R → Nat) (sp : R)
    (w : Nat) (st : WrapSt R) (r : R) : WrapSt R :=
  let word := if isSpace r then st.word else st.word ++ [r]
  let spaces := if isSpace r then st.spaces + 1 else st.spaces
  if 0 < spaces then
    -- a run of spaces ends the pending word
    if w < strWidth rwidth st.cur + strWidth rwidth word + spaces then
      -- word + spaces would overflow: start a new row holding them
      ⟨st.done ++ [st.cur], word ++ repeatSpaces sp spaces, [], 0⟩
    else
      -- append word + spaces to the current row
      ⟨st.done, st.cur ++ word ++ repeatSpaces sp spaces, [], 0⟩
  else
    -- no pending spaces: `word` is non-empty here (the rune just scanned was
    -- appended to it), and `word[len(word)-1]` is that rune
    let lastCharLen := (word.getLast?.map rwidth).getD 0
    if w < strWidth rwidth word + lastCharLen then
      if 0 < st.cur.length then
        -- current row non-empty: flush `word` onto a fresh row
        ⟨st.done ++ [st.cur], word, [], spaces⟩
      else
        -- current row empty: `word` becomes the current row (may overflow)
        ⟨st.done, word, [], spaces⟩
    else
      ⟨st.done, st.cur, word, spaces⟩

/-- The final flush of `wrap` (textarea.go lines 1380–1391): the remainder is
placed on the current row, or on one more trailing row if it would meet or
exceed `w`; either way one extra padding space is appended. -/
def wrapFlush {R : Type} (rwidth : R → Nat) (sp : R) (w : Nat)
    (st : WrapSt R) : List (List R) :=
  if w ≤ strWidth rwidth st.cur + strWidth rwidth st.word + st.spaces then
    st.done ++ [st.cur, st.word ++ repeatSpaces sp (st.spaces + 1)]
  else
    st.done ++ [st.cur ++ st.word ++ repeatSpaces sp (st.spaces + 1)]

/-- `wrap` (textarea.go lines 1333–1394): greedy word-wrap of a rune sequence
to display width `w`, producing the ordered visual sub-lines. -/
def wrap {R : Type} (isSpace : R → Bool) (rwidth : R → Nat) (sp : R)
    (rs : List R) (w : Nat) : List (List R) :=
  wrapFlush rwidth sp w (rs.foldl (wrapStep isSpace rwidth sp w) ⟨[], [], [], 0⟩)

/-! ## The concrete rune type of the repository

The repository observes runes through the Go standard library
(`unicode.IsSpace`, `unicode.IsControl`) and through the external
display-width libraries (`go-runewidth` / `uniseg`).  Those libraries are
collaborators outside `src/`; the first two are translated from the Go
standard library tables, the width function is modelled from the spec. -/

/-- Go `unicode.IsSpace`: membership in the Unicode `White_Space` property
(the exact code-point list of the Go `unicode` package). -/
def goIsSpace (c : Char) : Bool :=
  (0x9 ≤ c.toNat && c.toNat ≤ 0xD) || c.toNat = 0x20 || c.toNat = 0x85 ||
  c.toNat = 0xA0 || c.toNat = 0x1680 ||
  (0x2000 ≤ c.toNat && c.toNat ≤ 0x200A) ||
  c.toNat = 0x2028 || c.toNat = 0x2029 || c.toNat = 0x202F ||
  c.toNat = 0x205F || c.toNat = 0x3000

/-- Go `unicode.IsControl`: the `Cc` code points of the Latin-1 range (Go
returns `false` above `MaxLatin1`). -/
def goIsControl (c : Char) : Bool :=
  c.toNat ≤ 0x1F || (0x7F ≤ c.toNat && c.toNat ≤ 0x9F)

/-- Modelled from the spec: the display-width capability (`go-runewidth` /
`uniseg`, external collaborators not under `src/`).  Glossary: "the number of
terminal columns a glyph occupies (1 for most glyphs, 2 for East-Asian wide
glyphs)"; the East-Asian wide/fullwidth blocks used by the repository are
listed explicitly. -/
def displayWidth (c : Char) : Nat :=
  let n := c.toNat
  if (0x1100 ≤ n && n ≤ 0x115F) || (0x2E80 ≤ n && n ≤ 0x303E) ||
     (0x3041 ≤ n && n ≤ 0x33FF) || (0x3400 ≤ n && n ≤ 0x4DBF) ||
     (0x4E00 ≤ n && n ≤ 0x9FFF) || (0xA000 ≤ n && n ≤ 0xA4CF) ||
     (0xAC00 ≤ n && n ≤ 0xD7A3) || (0xF900 ≤ n && n ≤ 0xFAFF) ||
     (0xFE30 ≤ n && n ≤ 0xFE4F) || (0xFF00 ≤ n && n ≤ 0xFF60) ||
     (0xFFE0 ≤ n && n ≤ 0xFFE6) || (0x20000 ≤ n && n ≤ 0x2FFFD) ||
     (0x30000 ≤ n && n ≤ 0x3FFFD)
  then 2 else 1

/-- Display width of a `Char` sequence. -/
def strWidthC (rs : List Char) : Nat := strWidth displayWidth rs

/-- `wrap` at the repository's rune type. -/
def wrapC (rs : List Char) (w : Nat) : List (List Char) :=
  wrap goIsSpace displayWidth ' ' rs w

example : wrapC [] 1 = [[' ']] := by decide
example : wrapC ['a', 'a', 'a', 'a', 'a'] 3 = [['a', 'a', 'a'], ['a', 'a', ' ']] := by
  decide

/-! ## Wrap lemmas -/

section WrapLemmas

variable {R : Type} (isSpace : R → Bool) (rwidth : R → Nat) (sp : R) (w : Nat)

/-- `wrap` replaces every whitespace rune by the canonical space it emits. -/
def canonSpace (c : R) : R := if isSpace c then sp else c

theorem strWidth_append (a b : List R) :
    strWidth rwidth (a ++ b) = strWidth rwidth a + strWidth rwidth b := by
  simp [strWidth]

theorem strWidth_repeatSpaces (n : Nat) :
    strWidth rwidth (repeatSpaces sp n) = n * rwidth sp := by
  simp [strWidth, repeatSpaces, List.map_replicate, List.sum_replicate, smul_eq_mul]

/-- The runes emitted so far by the wrap loop, in order. -/
def emitted (st : WrapSt R) : List R := st.done.flatten ++ st.cur ++ st.word

/-- One wrap iteration emits exactly the canonicalized scanned rune, and the
pending-space counter returns to zero. -/
theorem wrapStep_emitted (st : WrapSt R) (r : R) (h0 : st.spaces = 0) :
    (wrapStep isSpace rwidth sp w st r).spaces = 0 ∧
      emitted (wrapStep isSpace rwidth sp w st r) =
        emitted st ++ [canonSpace isSpace sp r] := by
  cases hr : isSpace r with
  | true =>
    simp only [wrapStep, hr, if_true, h0, canonSpace, emitted, repeatSpaces]
    rw [if_pos (by omega : (0:Nat) < 0 + 1)]
    split_ifs with h2 <;> simp [List.flatten_append]
  | false =>
    simp only [wrapStep, hr, Bool.false_eq_true, if_false, h0, canonSpace,
      emitted, repeatSpaces]
    rw [if_neg (by omega : ¬ (0:Nat) < 0)]
    split_ifs with h2 h3
    · simp [List.flatten_append]
    · have hc : st.cur = [] := List.length_eq_zero.mp (by omega)
      simp [hc]
    · simp

/-- Folding the wrap loop over a rune list emits its canonicalized image. -/
theorem wrapFold_emitted (rs : List R) (st : WrapSt R) (h0 : st.spaces = 0) :
    (rs.foldl (wrapStep isSpace rwidth sp w) st).spaces = 0 ∧
      emitted (rs.foldl (wrapStep isSpace rwidth sp w) st) =
        emitted st ++ rs.map (canonSpace isSpace sp) := by
  induction rs generalizing st with
  | nil => simp [h0]
  | cons r rs ih =>
    obtain ⟨h0', hem⟩ := wrapStep_emitted isSpace rwidth sp w st r h0
    obtain ⟨h0'', hem'⟩ := ih (wrapStep isSpace rwidth sp w st r) h0'
    refine ⟨h0'', ?_⟩
    simp only [List.foldl_cons, hem', hem, List.map_cons]
    simp

/-- Concatenating the sub-lines of `wrap` yields the input with every
whitespace rune replaced by the canonical space, plus one extra trailing
space appended by the final flush. -/
theorem wrap_join (rs : List R) (hw : Nat) :
    (wrap isSpace rwidth sp rs hw).flatten =
      rs.map (canonSpace isSpace sp) ++ [sp] := by
  obtain ⟨h0, hem⟩ :=
    wrapFold_emitted isSpace rwidth sp hw rs ⟨[], [], [], 0⟩ rfl
  set st := rs.foldl (wrapStep isSpace rwidth sp hw) ⟨[], [], [], 0⟩ with hst
  have hem' : st.done.flatten ++ st.cur ++ st.word = rs.map (canonSpace isSpace sp) := by
    simpa [emitted] using hem
  unfold wrap
  rw [← hst]
  unfold wrapFlush
  rw [h0]
  split <;> simp [List.flatten_append, repeatSpaces, ← hem']

/-- A visual sub-line is acceptable when its display width is within the
bound, or when it consists solely of non-space runes (an unsplittable word
allowed to overflow alone). -/
def LineOk (ℓ : List R) : Prop :=
  strWidth rwidth ℓ ≤ w ∨ ∀ c ∈ ℓ, isSpace c = false

/-- Invariant of the wrap loop: all finished rows and the current row are
acceptable, the pending word is all non-space and narrower than `w`, and no
spaces are pending. -/
def WrapInv (st : WrapSt R) : Prop :=
  (∀ ℓ ∈ st.done, LineOk isSpace rwidth w ℓ) ∧
    LineOk isSpace rwidth w st.cur ∧
    (∀ c ∈ st.word, isSpace c = false) ∧
    (st.word = [] ∨ strWidth rwidth st.word < w) ∧
    st.spaces = 0

theorem wrapStep_inv (hw : 1 ≤ w) (hsp : rwidth sp = 1) (st : WrapSt R) (r : R)
    (h : WrapInv isSpace rwidth w st) :
    WrapInv isSpace rwidth w (wrapStep isSpace rwidth sp w st r) := by
  obtain ⟨hdone, hcur, hwordsp, hwordw, h0⟩ := h
  have hwordw' : strWidth rwidth st.word + 1 ≤ w := by
    rcases hwordw with h | h
    · have hz : strWidth rwidth st.word = 0 := by simp [h, strWidth]
      omega
    · omega
  cases hr : isSpace r with
  | true =>
    simp only [wrapStep, hr, if_true, h0]
    rw [if_pos (by omega : (0:Nat) < 0 + 1)]
    split_ifs with h2
    · refine ⟨?_, Or.inl ?_, by simp, Or.inl rfl, rfl⟩
      · intro ℓ hl
        rcases List.mem_append.mp hl with hl | hl
        · exact hdone ℓ hl
        · simp only [List.mem_singleton] at hl; subst hl; exact hcur
      · rw [strWidth_append, strWidth_repeatSpaces, hsp]
        omega
    · exact ⟨hdone, Or.inl (by rw [strWidth_append, strWidth_append,
        strWidth_repeatSpaces, hsp]; omega), by simp, Or.inl rfl, rfl⟩
  | false =>
    simp only [wrapStep, hr, Bool.false_eq_true, if_false, h0]
    rw [if_neg (by omega : ¬ (0:Nat) < 0)]
    have hword1 : ∀ c ∈ st.word ++ [r], isSpace c = false := by
      intro c hc
      rcases List.mem_append.mp hc with hc | hc
      · exact hwordsp c hc
      · simp only [List.mem_singleton] at hc; subst hc; exact hr
    split_ifs with h2 h3
    · refine ⟨?_, Or.inr hword1, by simp, Or.inl rfl, rfl⟩
      intro ℓ hl
      rcases List.mem_append.mp hl with hl | hl
      · exact hdone ℓ hl
      · simp only [List.mem_singleton] at hl; subst hl; exact hcur
    · exact ⟨hdone, Or.inr hword1, by simp, Or.inl rfl, rfl⟩
    · refine ⟨hdone, hcur, hword1, Or.inr ?_, rfl⟩
      rw [Nat.not_lt] at h2
      rw [List.getLast?_concat] at h2
      simp only [Option.map_some', Option.getD_some] at h2
      rw [strWidth_append] at h2 ⊢
      have : strWidth rwidth [r] = rwidth r := by simp [strWidth]
      rw [this] at h2 ⊢
      rcases Nat.eq_zero_or_pos (rwidth r) with hz | hz
      · rcases hwordw with he | he
        · have hz2 : strWidth rwidth st.word = 0 := by simp [he, strWidth]
          omega
        · omega
      · omega

theorem wrapFold_inv (hw : 1 ≤ w) (hsp : rwidth sp = 1) (rs : List R)
    (st : WrapSt R) (h : WrapInv isSpace rwidth w st) :
    WrapInv isSpace rwidth w (rs.foldl (wrapStep isSpace rwidth sp w) st) := by
  induction rs generalizing st with
  | nil => exact h
  | cons r rs ih =>
    exact ih _ (wrapStep_inv isSpace rwidth sp w hw hsp st r h)

/-- Every sub-line produced by `wrap` either fits in the width bound or is a
single unsplittable all-non-space word. -/
theorem wrap_lineOk (hw : 1 ≤ w) (hsp : rwidth sp = 1) (rs : List R) :
    ∀ ℓ ∈ wrap isSpace rwidth sp rs w, LineOk isSpace rwidth w ℓ := by
  have hinit : WrapInv isSpace rwidth w (⟨[], [], [], 0⟩ : WrapSt R) := by
    refine ⟨by simp, Or.inl ?_, by simp, Or.inl rfl, rfl⟩
    simp [strWidth]
  have hfin := wrapFold_inv isSpace rwidth sp w hw hsp rs _ hinit
  obtain ⟨hdone, hcur, hwordsp, hwordw, h0⟩ := hfin
  set st := rs.foldl (wrapStep isSpace rwidth sp w) ⟨[], [], [], 0⟩ with hst
  have hwordw' : strWidth rwidth st.word + 1 ≤ w := by
    rcases hwordw with h | h
    · have hz : strWidth rwidth st.word = 0 := by simp [h, strWidth]
      omega
    · omega
  intro ℓ hl
  unfold wrap at hl
  rw [← hst] at hl
  unfold wrapFlush at hl
  rw [h0] at hl
  split_ifs at hl with h2
  · rcases List.mem_append.mp hl with hl | hl
    · exact hdone ℓ hl
    · simp only [List.mem_cons, List.not_mem_nil, or_false] at hl
      rcases hl with rfl | rfl
      · exact hcur
      · left
        rw [strWidth_append, strWidth_repeatSpaces, hsp]
        omega
  · rcases List.mem_append.mp hl with hl | hl
    · exact hdone ℓ hl
    · simp only [List.mem_singleton] at hl
      subst hl
      left
      rw [strWidth_append, strWidth_append, strWidth_repeatSpaces, hsp]
      omega

end WrapLemmas

/-! ## The LRU memoization cache (`memoization.go`)

`MemoCache` keeps a `map[string]*list.Element` and a doubly-linked recency
list sharing the entries; the recency list determines both structures, so the
state is modelled as the recency-ordered entry list (front = most recently
used).  Keys are SHA-256 fingerprints of the hashable inputs; the digest is
collision-free on the repository's inputs (spec §4.1), so entries are keyed
directly by the input. -/

/-- `MemoCache`: capacity plus the recency-ordered entries (front = most
recently touched). -/
structure MemoCache (K V : Type) where
  capacity : Nat
  entries : List (K × V)

/-- `NewMemoCache`. -/
def NewMemoCache (K V : Type) (capacity : Nat) : MemoCache K V :=
  ⟨capacity, []⟩

/-- Assoc-list lookup: the value stored under `k` (the `cache` map lookup). -/
def lookupKey {K V : Type} [DecidableEq K] : List (K × V) → K → Option V
  | [], _ => none
  | e :: rest, k => if e.1 = k then some e.2 else lookupKey rest k

/-- Remove the (first) entry with key `k` (unlinking a list element). -/
def removeKey {K V : Type} [DecidableEq K] : List (K × V) → K → List (K × V)
  | [], _ => []
  | e :: rest, k => if e.1 = k then rest else e :: removeKey rest k

/-- `MemoCache.Get` (memoization.go lines 61–73): on a hit the entry moves to
the front of the recency list and its value is returned. -/
def MemoCacheGet {K V : Type} [DecidableEq K] (m : MemoCache K V) (k : K) :
    Option V × MemoCache K V :=
  match lookupKey m.entries k with
  | some v => (some v, ⟨m.capacity, (k, v) :: removeKey m.entries k⟩)
  | none => (none, m)

/-- `MemoCache.Set` (memoization.go lines 77–108): an existing key is updated
and moved to the front; a new key evicts the back-most entry when the cache
is full, then is pushed to the front.  (`list.Back()` of an empty list is
`nil` and evicts nothing, which `List.dropLast` also models.) -/
def MemoCacheSet {K V : Type} [DecidableEq K] (m : MemoCache K V) (k : K)
    (v : V) : MemoCache K V :=
  if (lookupKey m.entries k).isSome then
    ⟨m.capacity, (k, v) :: removeKey m.entries k⟩
  else if m.capacity ≤ m.entries.length then
    ⟨m.capacity, (k, v) :: m.entries.dropLast⟩
  else
    ⟨m.capacity, (k, v) :: m.entries⟩

/-- `MemoCache.Size` (length of the recency list). -/
def MemoCacheSize {K V : Type} (m : MemoCache K V) : Nat := m.entries.length

/-- One client operation on the cache. -/
inductive CacheOp (K V : Type) where
  | get (k : K)
  | set (k : K) (v : V)

/-- Run a sequence of operations (a `Get`'s return value is discarded, its
recency side effect kept). -/
def runOps {K V : Type} [DecidableEq K] (ops : List (CacheOp K V))
    (m : MemoCache K V) : MemoCache K V :=
  ops.foldl
    (fun m op =>
      match op with
      | .get k => (MemoCacheGet m k).2
      | .set k v => MemoCacheSet m k v)
    m

/-- The value of the most recent `set` for key `k` in an operation sequence
(`acc` is the value before the sequence). -/
def lastSet {K V : Type} [DecidableEq K] (acc : Option V)
    (ops : List (CacheOp K V)) (k : K) : Option V :=
  ops.foldl
    (fun a op =>
      match op with
      | .get _ => a
      | .set k2 v => if k2 = k then some v else a)
    acc

/-! ### Cache lemmas -/

section CacheLemmas

variable {K V : Type} [DecidableEq K]

theorem lookupKey_mem {l : List (K × V)} {k : K} {v : V}
    (h : lookupKey l k = some v) : (k, v) ∈ l := by
  induction l with
  | nil => simp [lookupKey] at h
  | cons e rest ih =>
    rw [lookupKey] at h
    split_ifs at h with he
    · obtain ⟨k1, v1⟩ := e
      simp only at he h
      subst he
      injection h with h2
      subst h2
      exact List.mem_cons_self _ _
    · exact List.mem_cons_of_mem _ (ih h)

theorem lookupKey_eq_none_iff {l : List (K × V)} {k : K} :
    lookupKey l k = none ↔ ∀ p ∈ l, p.1 ≠ k := by
  induction l with
  | nil => simp [lookupKey]
  | cons e rest ih =>
    rw [lookupKey]
    split_ifs with he
    · simp [he]
    · rw [ih]
      simp [he]

theorem removeKey_sublist (l : List (K × V)) (k : K) :
    (removeKey l k).Sublist l := by
  induction l with
  | nil => simp [removeKey]
  | cons e rest ih =>
    rw [removeKey]
    split_ifs
    · exact List.sublist_cons_self e rest
    · exact ih.cons₂ e

theorem not_mem_keys_removeKey {l : List (K × V)} {k : K}
    (hnd : (l.map Prod.fst).Nodup) : k ∉ (removeKey l k).map Prod.fst := by
  induction l with
  | nil => simp [removeKey]
  | cons e rest ih =>
    simp only [List.map_cons, List.nodup_cons] at hnd
    rw [removeKey]
    split_ifs with he
    · rw [← he]
      exact hnd.1
    · simp only [List.map_cons, List.mem_cons]
      rintro (h1 | h2)
      · exact he h1.symm
      · exact ih hnd.2 h2

theorem removeKey_length {l : List (K × V)} {k : K}
    (h : (lookupKey l k).isSome) : (removeKey l k).length + 1 = l.length := by
  induction l with
  | nil => simp [lookupKey] at h
  | cons e rest ih =>
    rw [lookupKey] at h
    rw [removeKey]
    split_ifs at h ⊢ with he
    · simp
    · simp only [List.length_cons]
      rw [← ih h]

/-- Invariant carried through a run: every entry holds the most recently
written value for its key, keys are distinct, and the size respects the
capacity (a cache of capacity 0 still reaches size 1). -/
def CacheInv (hist : K → Option V) (m : MemoCache K V) : Prop :=
  (∀ p ∈ m.entries, hist p.1 = some p.2) ∧
    (m.entries.map Prod.fst).Nodup ∧
    m.entries.length ≤ max m.capacity 1

theorem MemoCacheGet_fst (m : MemoCache K V) (k : K) :
    (MemoCacheGet m k).1 = lookupKey m.entries k := by
  unfold MemoCacheGet
  cases h : lookupKey m.entries k <;> simp [h]

theorem MemoCacheGet_inv {hist : K → Option V} {m : MemoCache K V} (k : K)
    (h : CacheInv hist m) : CacheInv hist (MemoCacheGet m k).2 := by
  obtain ⟨hv, hnd, hlen⟩ := h
  unfold MemoCacheGet
  cases hlk : lookupKey m.entries k with
  | none => exact ⟨hv, hnd, hlen⟩
  | some v =>
    refine ⟨?_, ?_, ?_⟩
    · intro p hp
      rcases List.mem_cons.mp hp with rfl | hp
      · exact hv _ (lookupKey_mem hlk)
      · exact hv _ ((removeKey_sublist m.entries k).subset hp)
    · simp only [List.map_cons, List.nodup_cons]
      exact ⟨not_mem_keys_removeKey hnd,
        hnd.sublist ((removeKey_sublist m.entries k).map Prod.fst)⟩
    · simp only [List.length_cons]
      rw [removeKey_length (by simp [hlk])]
      exact hlen

theorem MemoCacheSet_inv {hist : K → Option V} {m : MemoCache K V} (k : K)
    (v : V) (h : CacheInv hist m) :
    CacheInv (fun k2 => if k = k2 then some v else hist k2)
      (MemoCacheSet m k v) := by
  obtain ⟨hv, hnd, hlen⟩ := h
  unfold MemoCacheSet
  split_ifs with hex hcap
  · refine ⟨?_, ?_, ?_⟩
    · intro p hp
      rcases List.mem_cons.mp hp with rfl | hp
      · simp
      · have hne : p.1 ≠ k := by
          intro he
          exact not_mem_keys_removeKey hnd
            (he ▸ List.mem_map_of_mem Prod.fst hp)
        show (if k = p.1 then some v else hist p.1) = some p.2
        rw [if_neg fun he => hne he.symm]
        exact hv _ ((removeKey_sublist m.entries k).subset hp)
    · simp only [List.map_cons, List.nodup_cons]
      exact ⟨not_mem_keys_removeKey hnd,
        hnd.sublist ((removeKey_sublist m.entries k).map Prod.fst)⟩
    · simp only [List.length_cons]
      rw [removeKey_length hex]
      exact hlen
  · have hnomem : ∀ p ∈ m.entries, p.1 ≠ k :=
      lookupKey_eq_none_iff.mp (Option.not_isSome_iff_eq_none.mp hex)
    refine ⟨?_, ?_, ?_⟩
    · intro p hp
      rcases List.mem_cons.mp hp with rfl | hp
      · simp
      · have hp' := m.entries.dropLast_sublist.subset hp
        show (if k = p.1 then some v else hist p.1) = some p.2
        rw [if_neg fun he => hnomem _ hp' he.symm]
        exact hv _ hp'
    · simp only [List.map_cons, List.nodup_cons]
      constructor
      · intro hk
        rcases List.mem_map.mp hk with ⟨p, hp, hpk⟩
        exact hnomem _ (m.entries.dropLast_sublist.subset hp) hpk
      · exact hnd.sublist (m.entries.dropLast_sublist.map Prod.fst)
    · simp only [List.length_cons, List.length_dropLast]
      omega
  · have hnomem : ∀ p ∈ m.entries, p.1 ≠ k :=
      lookupKey_eq_none_iff.mp (Option.not_isSome_iff_eq_none.mp hex)
    refine ⟨?_, ?_, ?_⟩
    · intro p hp
      rcases List.mem_cons.mp hp with rfl | hp
      · simp
      · show (if k = p.1 then some v else hist p.1) = some p.2
        rw [if_neg fun he => hnomem _ hp he.symm]
        exact hv _ hp
    · simp only [List.map_cons, List.nodup_cons]
      constructor
      · intro hk
        rcases List.mem_map.mp hk with ⟨p, hp, hpk⟩
        exact hnomem _ hp hpk
      · exact hnd
    · simp only [List.length_cons]
      omega

/-- Running any operation sequence preserves the cache invariant, with the
history advanced by the sets in the sequence. -/
theorem runOps_inv {hist : K → Option V} {m : MemoCache K V}
    (ops : List (CacheOp K V)) (h : CacheInv hist m) :
    CacheInv (fun k => lastSet (hist k) ops k) (runOps ops m) := by
  induction ops generalizing hist m with
  | nil => exact h
  | cons op rest ih =>
    cases op with
    | get k =>
      exact ih (MemoCacheGet_inv k h)
    | set k v =>
      exact ih (MemoCacheSet_inv k v h)

theorem runOps_capacity {K V : Type} [DecidableEq K]
    (ops : List (CacheOp K V)) (m : MemoCache K V) :
    (runOps ops m).capacity = m.capacity := by
  induction ops generalizing m with
  | nil => rfl
  | cons op rest ih =>
    cases op with
    | get k =>
      rw [show runOps (CacheOp.get k :: rest) m = runOps rest (MemoCacheGet m k).2 from rfl, ih]
      unfold MemoCacheGet
      cases h : lookupKey m.entries k <;> rfl
    | set k v =>
      rw [show runOps (CacheOp.set k v :: rest) m = runOps rest (MemoCacheSet m k v) from rfl, ih]
      unfold MemoCacheSet
      split_ifs <;> rfl

end CacheLemmas

/-! ### The LRU eviction scenario (claim C5) -/

/-- The recency list holding keys `a + n - 1, …, a + 1, a` (front = most
recent), each key mapped to itself as value. -/
def descPairs (a : Nat) : Nat → List (Nat × Nat)
  | 0 => []
  | n + 1 => (a + n, a + n) :: descPairs a n

/-- The operation sequence that `Set`s keys `1, …, n` in order. -/
def setOpsUpTo : Nat → List (CacheOp Nat Nat)
  | 0 => []
  | n + 1 => setOpsUpTo n ++ [.set (n + 1) (n + 1)]

theorem descPairs_lookup (a n k : Nat) :
    lookupKey (descPairs a n) k =
      if a ≤ k ∧ k < a + n then some k else none := by
  induction n with
  | zero =>
    rw [descPairs, if_neg (by omega)]
    rfl
  | succ n ih =>
    rw [descPairs, lookupKey, ih]
    by_cases hk : a + n = k
    · rw [if_pos hk, if_pos (by omega)]
      rw [hk]
    · rw [if_neg hk]
      by_cases hr : a ≤ k ∧ k < a + n
      · rw [if_pos hr, if_pos (by omega)]
      · rw [if_neg hr, if_neg (by omega)]

theorem descPairs_length (a n : Nat) : (descPairs a n).length = n := by
  induction n with
  | zero => rfl
  | succ n ih => rw [descPairs, List.length_cons, ih]

theorem descPairs_dropLast (a n : Nat) :
    (descPairs a (n + 1)).dropLast = descPairs (a + 1) n := by
  induction n with
  | zero => rfl
  | succ n ih =>
    have h1 : descPairs a (n + 2) =
        (a + (n + 1), a + (n + 1)) :: (a + n, a + n) :: descPairs a n := rfl
    rw [h1, List.dropLast_cons₂]
    rw [show ((a + n, a + n) :: descPairs a n) = descPairs a (n + 1) from rfl, ih]
    rw [show a + (n + 1) = (a + 1) + n by omega]
    rfl

theorem descPairs_getLast (a n : Nat) :
    (descPairs a (n + 1)).getLast? = some (a, a) := by
  induction n with
  | zero => rfl
  | succ n ih =>
    have h1 : descPairs a (n + 2) =
        (a + (n + 1), a + (n + 1)) :: (a + n, a + n) :: descPairs a n := rfl
    rw [h1, List.getLast?_cons_cons]
    exact ih

/-- Inserting fresh keys `1, …, n` into an empty cache of capacity `C ≥ n`
fills the recency list front-to-back with the newest key in front. -/
theorem runOps_setOpsUpTo (C : Nat) :
    ∀ n, n ≤ C →
      (runOps (setOpsUpTo n) (NewMemoCache Nat Nat C)).entries = descPairs 1 n := by
  intro n
  induction n with
  | zero => intro _; rfl
  | succ n ih =>
    intro hn
    rw [setOpsUpTo]
    unfold runOps
    rw [List.foldl_append]
    have hrun := ih (by omega)
    have hcap := runOps_capacity (setOpsUpTo n) (NewMemoCache Nat Nat C)
    set m1 := runOps (setOpsUpTo n) (NewMemoCache Nat Nat C) with hm1
    show (MemoCacheSet m1 (n + 1) (n + 1)).entries = descPairs 1 (n + 1)
    have hC : (NewMemoCache Nat Nat C).capacity = C := rfl
    rw [hC] at hcap
    have hlook : lookupKey (descPairs 1 n) (n + 1) = none := by
      rw [descPairs_lookup, if_neg (by omega)]
    unfold MemoCacheSet
    rw [hrun, hlook]
    simp only [Option.isSome_none, Bool.false_eq_true, if_false]
    rw [hcap, descPairs_length]
    rw [if_neg (by omega : ¬ C ≤ n)]
    show (n + 1, n + 1) :: descPairs 1 n = descPairs 1 (n + 1)
    rw [show descPairs 1 (n + 1) = (1 + n, 1 + n) :: descPairs 1 n from rfl]
    rw [show (1 : Nat) + n = n + 1 from by omega]

/-- The cache state after inserting keys `1, …, C+1` into an empty cache of
capacity `C` and then issuing `Get 1` (a miss: key 1 was evicted when key
`C+1` was inserted). -/
def lruScenarioAfterGet (C : Nat) : MemoCache Nat Nat :=
  (MemoCacheGet (runOps (setOpsUpTo (C + 1)) (NewMemoCache Nat Nat C)) 1).2

/-- The cache state after the final `Set` of the fresh key `C+2`. -/
def lruScenarioFinal (C : Nat) : MemoCache Nat Nat :=
  MemoCacheSet (lruScenarioAfterGet C) (C + 2) (C + 2)

theorem scenario_insert_entries (C : Nat) (hC : 1 ≤ C) :
    (runOps (setOpsUpTo (C + 1)) (NewMemoCache Nat Nat C)).entries =
      descPairs 2 C := by
  rw [setOpsUpTo]
  unfold runOps
  rw [List.foldl_append]
  have hrun := runOps_setOpsUpTo C C le_rfl
  have hcap := runOps_capacity (setOpsUpTo C) (NewMemoCache Nat Nat C)
  set m1 := runOps (setOpsUpTo C) (NewMemoCache Nat Nat C) with hm1
  show (MemoCacheSet m1 (C + 1) (C + 1)).entries = descPairs 2 C
  have hC2 : (NewMemoCache Nat Nat C).capacity = C := rfl
  rw [hC2] at hcap
  have hlook : lookupKey (descPairs 1 C) (C + 1) = none := by
    rw [descPairs_lookup, if_neg (by omega)]
  unfold MemoCacheSet
  rw [hrun, hlook]
  simp only [Option.isSome_none, Bool.false_eq_true, if_false]
  rw [hcap, descPairs_length]
  rw [if_pos (le_refl C)]
  show (C + 1, C + 1) :: (descPairs 1 C).dropLast = descPairs 2 C
  obtain ⟨D, rfl⟩ : ∃ D, C = D + 1 := ⟨C - 1, by omega⟩
  rw [descPairs_dropLast]
  show (D + 1 + 1, D + 1 + 1) :: descPairs 2 D = descPairs 2 (D + 1)
  rw [show descPairs 2 (D + 1) = (2 + D, 2 + D) :: descPairs 2 D from rfl]
  rw [show (2 : Nat) + D = D + 1 + 1 from by omega]

theorem scenario_afterGet (C : Nat) (hC : 1 ≤ C) :
    (lruScenarioAfterGet C).entries = descPairs 2 C ∧
      (lruScenarioAfterGet C).capacity = C := by
  have hent := scenario_insert_entries C hC
  have hcap :
      (runOps (setOpsUpTo (C + 1)) (NewMemoCache Nat Nat C)).capacity = C :=
    runOps_capacity _ _
  unfold lruScenarioAfterGet MemoCacheGet
  rw [hent, descPairs_lookup, if_neg (by omega)]
  exact ⟨hent, hcap⟩

theorem scenario_final_entries (C : Nat) (hC : 1 ≤ C) :
    (lruScenarioFinal C).entries =
        (C + 2, C + 2) :: (lruScenarioAfterGet C).entries.dropLast ∧
      (lruScenarioFinal C).entries = descPairs 3 C := by
  obtain ⟨hent, hcap⟩ := scenario_afterGet C hC
  have hlook : lookupKey (descPairs 2 C) (C + 2) = none := by
    rw [descPairs_lookup, if_neg (by omega)]
  unfold lruScenarioFinal MemoCacheSet
  rw [hent, hcap, hlook]
  simp only [Option.isSome_none, Bool.false_eq_true, if_false]
  rw [descPairs_length, if_pos (le_refl C)]
  refine ⟨rfl, ?_⟩
  obtain ⟨D, rfl⟩ : ∃ D, C = D + 1 := ⟨C - 1, by omega⟩
  show (D + 1 + 2, D + 1 + 2) :: (descPairs 2 (D + 1)).dropLast = _
  rw [descPairs_dropLast]
  show (D + 1 + 2, D + 1 + 2) :: descPairs 3 D = descPairs 3 (D + 1)
  rw [show descPairs 3 (D + 1) = (3 + D, 3 + D) :: descPairs 3 D from rfl]
  rw [show (3 : Nat) + D = D + 1 + 2 from by omega]

/-! ## The textarea model (`textarea.go`)

The buffer/cursor state of the widget.  Styling, key maps, the viewport and
the blink cursor do not affect buffer or cursor and are omitted.  Cursor row
and column are Go `int`s that are non-negative in every reachable state and
are modelled as `Nat` (see the header note on truncated subtraction). -/

/-- `maxLines` (textarea.go line 33). -/
def maxLines : Nat := 10000

/-- The buffer/cursor state of `Model` (textarea.go lines 178–256). -/
structure Model where
  value : List (List Char)
  row : Nat
  col : Nat
  lastCharOffset : Nat
  width : Nat
  charLimit : Nat
deriving Repr, DecidableEq

/-- The current line `m.value[m.row]`. -/
def lineAt (m : Model) : List Char := m.value.getD m.row []

/-- `clamp` (textarea.go lines 1400–1405). -/
def clamp (v low high : Nat) : Nat :=
  if high < low then min low (max high v) else min high (max low v)

/-- `SetCursor` (textarea.go lines 522–527): clamp the column and reset the
remembered horizontal offset. -/
def SetCursor (m : Model) (c : Nat) : Model :=
  { m with col := clamp c 0 (lineAt m).length, lastCharOffset := 0 }

/-- `CursorStart` (textarea.go line 530). -/
def CursorStart (m : Model) : Model := SetCursor m 0

/-- `CursorEnd` (textarea.go line 535). -/
def CursorEnd (m : Model) : Model := SetCursor m (lineAt m).length

/-- `characterRight` (textarea.go lines 675–684). -/
def characterRight (m : Model) : Model :=
  if m.col < (lineAt m).length then SetCursor m (m.col + 1)
  else if m.row < m.value.length - 1 then CursorStart { m with row := m.row + 1 }
  else m

/-- `characterLeft` (textarea.go lines 686–699). -/
def characterLeft (insideLine : Bool) (m : Model) : Model :=
  if m.col = 0 ∧ m.row ≠ 0 then
    let m1 := CursorEnd { m with row := m.row - 1 }
    if insideLine then
      if 0 < m1.col then SetCursor m1 (m1.col - 1) else m1
    else m1
  else if 0 < m.col then SetCursor m (m.col - 1) else m

/-- `LineInfo` (textarea.go lines 99–115). -/
structure LineInfo where
  Width : Nat
  CharWidth : Nat
  Height : Nat
  StartColumn : Nat
  ColumnOffset : Nat
  RowOffset : Nat
  CharOffset : Nat
deriving Repr, DecidableEq

/-- `memoizedWrap` (textarea.go lines 1244–1252): the cache is semantically
transparent — a hit returns exactly the previously computed `wrap` result
(see the cache lemmas above) — so it is modelled as `wrap` itself. -/
def memoizedWrap (runes : List Char) (width : Nat) : List (List Char) :=
  wrapC runes width

/-- The scanning loop of `Model.LineInfo` (textarea.go lines 774–803):
`grid` and `height` stay fixed, `counter`/`i` advance; the Go zero value
`LineInfo{}` is returned after the loop. -/
def lineInfoLoop (grid : List (List Char)) (height col : Nat) :
    List (List Char) → Nat → Nat → LineInfo
  | [], _, _ => ⟨0, 0, 0, 0, 0, 0, 0⟩
  | l :: rest, counter, i =>
    if counter + l.length = col ∧ i + 1 < height then
      ⟨(grid.getD (i + 1) []).length, strWidthC l, height, col, 0, i + 1, 0⟩
    else if col ≤ counter + l.length then
      ⟨l.length, strWidthC l, height, counter, col - counter, i,
        strWidthC (l.take (col - counter))⟩
    else lineInfoLoop grid height col rest (counter + l.length) (i + 1)

/-- `Model.LineInfo` (textarea.go lines 770–805). -/
def lineInfo (m : Model) : LineInfo :=
  let grid := memoizedWrap (lineAt m) m.width
  lineInfoLoop grid grid.length m.col grid 0 0

/-- The walk of `advLoop` over the suffix of the line that starts at the
current column: the Go break condition `m.col >= len(m.value[m.row])` is
the suffix being empty, and the head of the suffix is `m.value[m.row][m.col]`. -/
def advLoopAux (rowOk : Bool) (charWidth charOffset : Nat) :
    List Char → Nat → Nat → Nat
  | [], col, _ => col
  | c :: rest, col, offset =>
    if offset < charOffset then
      if rowOk = false ∨ charWidth - 1 ≤ offset then col
      else advLoopAux rowOk charWidth charOffset rest (col + 1) (offset + displayWidth c)
    else col

/-- The cursor-advance loop shared by `CursorDown`/`CursorUp` (textarea.go
lines 476–483 and 510–517): starting from the wrapped row start, walk
forward accumulating display widths until the remembered offset (or a break
condition) is reached; returns the final column.  `CursorUp` has no row
bound check, modelled by passing `rowOk := true`. -/
def advLoop (rowOk : Bool) (line : List Char) (charWidth charOffset : Nat)
    (col offset : Nat) : Nat :=
  advLoopAux rowOk charWidth charOffset (line.drop col) col offset

/-- `CursorDown` (textarea.go lines 454–484). -/
def CursorDown (m : Model) : Model :=
  let li := lineInfo m
  let co := max m.lastCharOffset li.CharOffset
  let m1 := { m with lastCharOffset := co }
  let m2 :=
    if li.Height ≤ li.RowOffset + 1 ∧ m1.row < m1.value.length - 1 then
      { m1 with row := m1.row + 1, col := 0 }
    else
      { m1 with col := min (li.StartColumn + li.Width + 2) ((lineAt m1).length - 1) }
  let nli := lineInfo m2
  let m3 := { m2 with col := nli.StartColumn }
  if nli.Width = 0 then m3
  else
    { m3 with col := (advLoop (decide (m3.row < m3.value.length)) (lineAt m3)
        nli.CharWidth co m3.col 0) }

/-- `CursorUp` (textarea.go lines 487–518). -/
def CursorUp (m : Model) : Model :=
  let li := lineInfo m
  let co := max m.lastCharOffset li.CharOffset
  let m1 := { m with lastCharOffset := co }
  let m2 :=
    if li.RowOffset = 0 ∧ 0 < m1.row then
      { m1 with row := m1.row - 1, col := (m1.value.getD (m1.row - 1) []).length }
    else
      { m1 with col := li.StartColumn - 2 }
  let nli := lineInfo m2
  let m3 := { m2 with col := nli.StartColumn }
  if nli.Width = 0 then m3
  else
    { m3 with col := advLoop true (lineAt m3) nli.CharWidth co m3.col 0 }

/-! ### Mutating buffer operations -/

/-- `utf8.RuneError`. -/
def utf8RuneError : Char := '�'

/-- `Sanitize` of the default sanitizer (`runeutil.go` lines 21–30 and
51–92, as used by `Model.san`): drop `RuneError` and control runes, replace
`\r`/`\n` by `\n` and `\t` by four spaces. -/
def Sanitize (rs : List Char) : List Char :=
  rs.flatMap fun r =>
    if r = utf8RuneError then []
    else if r = '\r' ∨ r = '\n' then ['\n']
    else if r = '\t' then [' ', ' ', ' ', ' ']
    else if goIsControl r then []
    else [r]

/-- `Model.Length` (textarea.go lines 433–440): total display width plus one
per line break. -/
def Length (m : Model) : Nat :=
  (m.value.map strWidthC).sum + (m.value.length - 1)

/-- The line-splitting loop of `insertRunesFromUserInput` (textarea.go lines
355–368): split on `\n`, always emitting a final (possibly empty) segment. -/
def splitNL : List Char → List (List Char)
  | [] => [[]]
  | c :: rest =>
    if c = '\n' then [] :: splitNL rest
    else
      match splitNL rest with
      | [] => [[c]]
      | l :: ls => (c :: l) :: ls

/-- `mergeLineBelow` (textarea.go lines 1266–1283): append the line below to
`row`, shift the following rows up and drop the last row — i.e. remove the
row at `row+1`. -/
def mergeLineBelow (m : Model) (row : Nat) : Model :=
  if m.value.length - 1 ≤ row then m
  else
    let v1 := m.value.set row ((m.value.getD row []) ++ (m.value.getD (row + 1) []))
    { m with value := v1.take (row + 1) ++ v1.drop (row + 2) }

/-- `mergeLineAbove` (textarea.go lines 1286–1306): move the cursor to the
end of the line above, append `row` to it, and remove row `row`. -/
def mergeLineAbove (m : Model) (row : Nat) : Model :=
  if row = 0 then m
  else
    let m1 := { m with col := (m.value.getD (row - 1) []).length, row := m.row - 1 }
    let v1 := m1.value.set (row - 1) ((m1.value.getD (row - 1) []) ++ (m1.value.getD row []))
    { m1 with value := v1.take row ++ v1.drop (row + 1) }

/-- `splitLine` (textarea.go lines 1308–1322): keep the head of `row`, move
its tail to a new row below, and put the cursor at the start of that row. -/
def splitLine (m : Model) (row col : Nat) : Model :=
  let head := (m.value.getD row []).take col
  let tail := (m.value.getD row []).drop col
  let v1 := m.value.take (row + 1) ++ m.value.drop row
  let v2 := (v1.set row head).set (row + 1) tail
  { m with value := v2, col := 0, row := m.row + 1 }

/-- `Reset` (textarea.go lines 561–567). -/
def Reset (m : Model) : Model :=
  { m with value := [[]], row := 0, col := 0, lastCharOffset := 0 }

/-- The splicing part of `insertRunesFromUserInput` (textarea.go lines
376–415), after the input has been sanitized, truncated and split into
`lines`: paste the first line at the cursor, insert the remaining lines as
new rows, and re-attach the original tail of the cursor line after the last
inserted line. -/
def insertLines (m : Model) (lines : List (List Char)) : Model :=
  if lines.length = 0 then m
  else
    let tail := (lineAt m).drop m.col
    let first := lines.headD []
    let extra := lines.tail
    if extra.isEmpty then
      let m1 := { m with
        value := m.value.set m.row ((lineAt m).take m.col ++ first ++ tail),
        col := m.col + first.length }
      SetCursor m1 m1.col
    else
      let lastL := extra.getLastD []
      let v1 := m.value.set m.row ((lineAt m).take m.col ++ first)
      let v2 := v1.take (m.row + 1) ++ (extra.dropLast ++ [lastL ++ tail]) ++
        v1.drop (m.row + 1)
      let m1 := { m with value := v2, row := m.row + extra.length, col := lastL.length }
      SetCursor m1 m1.col

/-- `insertRunesFromUserInput` (textarea.go lines 337–415): sanitize, enforce
the character limit and the maximum line count, then splice. -/
def insertRunesFromUserInput (m : Model) (input : List Char) : Model :=
  let runes := Sanitize input
  if 0 < m.charLimit ∧ m.charLimit ≤ Length m then m
  else
    let runes :=
      if 0 < m.charLimit ∧ m.charLimit - Length m < runes.length then
        runes.take (m.charLimit - Length m)
      else runes
    let lines := splitNL runes
    let lines :=
      if 0 < maxLines ∧ maxLines < m.value.length + lines.length - 1 then
        lines.take (maxLines + 1 - m.value.length)
      else lines
    insertLines m lines

/-- `deleteBeforeCursor` (textarea.go lines 579–582). -/
def deleteBeforeCursor (m : Model) : Model :=
  let m1 := { m with value := m.value.set m.row ((lineAt m).drop m.col) }
  SetCursor m1 0

/-- `deleteAfterCursor` (textarea.go lines 586–589). -/
def deleteAfterCursor (m : Model) : Model :=
  let m1 := { m with value := m.value.set m.row ((lineAt m).take m.col) }
  SetCursor m1 (lineAt m1).length

/-- The `DeleteCharacterBackward` key handler (textarea.go lines 938–949). -/
def deleteCharacterBackward (m : Model) : Model :=
  let m0 := { m with col := clamp m.col 0 (lineAt m).length }
  if m0.col = 0 then mergeLineAbove m0 m0.row
  else if 0 < (lineAt m0).length then
    let m1 := { m0 with value := (m0.value.set m0.row
        ((lineAt m0).take (m0.col - 1) ++ (lineAt m0).drop m0.col)) }
    if 0 < m1.col then SetCursor m1 (m1.col - 1) else m1
  else m0

/-- The `DeleteCharacterForward` key handler (textarea.go lines 950–957). -/
def deleteCharacterForward (m : Model) : Model :=
  let m1 :=
    if 0 < (lineAt m).length ∧ m.col < (lineAt m).length then
      { m with value := (m.value.set m.row
          ((lineAt m).take m.col ++ (lineAt m).drop (m.col + 1))) }
    else m
  if (lineAt m1).length ≤ m1.col then mergeLineBelow m1 m1.row else m1

/-- The rune at column `i` of the current line (Go indexing panics out of
range; in-range in every reachable use). -/
def charAt (m : Model) (i : Nat) : Char := (lineAt m).getD i '\x00'

/-- First loop of `deleteWordLeft` (textarea.go lines 617–623): skip the
whitespace run left of the cursor. -/
def dwlSkipSpaces (m : Model) : Model :=
  if goIsSpace (charAt m m.col) then
    if m.col = 0 then m
    else dwlSkipSpaces (SetCursor m (m.col - 1))
  else m
termination_by m.col
decreasing_by
  simp only [SetCursor, clamp, lineAt]
  split_ifs <;> omega

/-- Second loop of `deleteWordLeft` (textarea.go lines 625–635): skip the
word, stopping one past the space that precedes it. -/
def dwlSkipWord (m : Model) : Model :=
  if m.col = 0 then m
  else if goIsSpace (charAt m m.col) = false then dwlSkipWord (SetCursor m (m.col - 1))
  else SetCursor m (m.col + 1)
termination_by m.col
decreasing_by
  simp only [SetCursor, clamp, lineAt]
  split_ifs <;> omega

/-- `deleteWordLeft` (textarea.go lines 607–642). -/
def deleteWordLeft (m : Model) : Model :=
  if m.col = 0 ∨ (lineAt m).length = 0 then m
  else
    let oldCol := m.col
    let m3 := dwlSkipWord (dwlSkipSpaces (SetCursor m (m.col - 1)))
    if (lineAt m3).length < oldCol then
      { m3 with value := m3.value.set m3.row ((lineAt m3).take m3.col) }
    else
      { m3 with value := (m3.value.set m3.row
          ((lineAt m3).take m3.col ++ (lineAt m3).drop oldCol)) }

/-- First loop of `deleteWordRight` (textarea.go lines 652–655). -/
def dwrSkipSpaces (m : Model) : Model :=
  if m.col < (lineAt m).length then
    if goIsSpace (charAt m m.col) then dwrSkipSpaces (SetCursor m (m.col + 1))
    else m
  else m
termination_by (lineAt m).length - m.col
decreasing_by
  simp only [SetCursor, clamp, lineAt] at *
  split_ifs <;> omega

/-- Second loop of `deleteWordRight` (textarea.go lines 657–663). -/
def dwrSkipWord (m : Model) : Model :=
  if m.col < (lineAt m).length then
    if goIsSpace (charAt m m.col) = false then dwrSkipWord (SetCursor m (m.col + 1))
    else m
  else m
termination_by (lineAt m).length - m.col
decreasing_by
  simp only [SetCursor, clamp, lineAt] at *
  split_ifs <;> omega

/-- `deleteWordRight` (textarea.go lines 645–672). -/
def deleteWordRight (m : Model) : Model :=
  if (lineAt m).length ≤ m.col ∨ (lineAt m).length = 0 then m
  else
    let oldCol := m.col
    let m3 := dwrSkipWord (dwrSkipSpaces m)
    let m4 :=
      if (lineAt m3).length < m3.col then
        { m3 with value := m3.value.set m3.row ((lineAt m3).take oldCol) }
      else
        { m3 with value := (m3.value.set m3.row
            ((lineAt m3).take oldCol ++ (lineAt m3).drop m3.col)) }
    SetCursor m4 oldCol

/-- The scanning loop of `wordLeft` (textarea.go lines 704–709), with
explicit fuel: each iteration moves one character left (`insideLine`) and
exits only when the cursor rests on a non-space character inside the line.
`none` means the fuel ran out without the loop exiting. -/
def wordLeftLoop : Nat → Model → Option Model
  | 0, _ => none
  | fuel + 1, m =>
    let m1 := characterLeft true m
    if m1.col < (lineAt m1).length ∧ goIsSpace (charAt m1 m1.col) = false then some m1
    else wordLeftLoop fuel m1

/-- The state of a freshly created textarea (`New`, textarea.go lines
259–292): one empty line, cursor at the origin, default width 40, no
character limit. -/
def initialModel : Model :=
  { value := [[]], row := 0, col := 0, lastCharOffset := 0, width := 40, charLimit := 0 }

/-- `MemoCache.Capacity` (memoization.go lines 47–49). -/
def MemoCacheCapacity {K V : Type} (m : MemoCache K V) : Nat := m.capacity

/-! ### The buffer/cursor invariant (claim C6) -/

/-- The data-model invariant (spec §3): at least one line, the cursor row a
valid buffer index, the cursor column at most the current line's length. -/
def ModelInv (m : Model) : Prop :=
  0 < m.value.length ∧ m.row < m.value.length ∧ m.col ≤ (lineAt m).length

instance (m : Model) : Decidable (ModelInv m) := by
  unfold ModelInv
  infer_instance

theorem clamp_le (c len : Nat) : clamp c 0 len ≤ len := by
  unfold clamp
  split_ifs <;> omega

theorem clamp_le_self (c len : Nat) : clamp c 0 len ≤ c := by
  unfold clamp
  split_ifs <;> omega

theorem SetCursor_value (m : Model) (c : Nat) : (SetCursor m c).value = m.value := rfl

theorem SetCursor_row (m : Model) (c : Nat) : (SetCursor m c).row = m.row := rfl

theorem SetCursor_col (m : Model) (c : Nat) :
    (SetCursor m c).col = clamp c 0 (lineAt m).length := rfl

/-- `SetCursor` establishes the column bound by itself; only the length and
row bounds of the underlying state are needed. -/
theorem Inv_SetCursor (m : Model) (c : Nat) (h1 : 0 < m.value.length)
    (h2 : m.row < m.value.length) : ModelInv (SetCursor m c) :=
  ⟨h1, h2, clamp_le c (lineAt m).length⟩

theorem getD_set_self {α : Type} (xs : List α) (i : Nat) (a d : α)
    (h : i < xs.length) : (xs.set i a).getD i d = a := by
  rw [List.getD_eq_getElem?_getD, List.getElem?_set_self h]
  rfl

theorem Inv_Reset (m : Model) : ModelInv (Reset m) := by
  refine ⟨?_, ?_, ?_⟩ <;> simp [Reset, lineAt]

theorem Inv_deleteBeforeCursor (m : Model) (h : ModelInv m) :
    ModelInv (deleteBeforeCursor m) := by
  obtain ⟨h1, h2, _⟩ := h
  unfold deleteBeforeCursor
  exact Inv_SetCursor _ _ (by simpa using h1) (by simpa using h2)

theorem Inv_deleteAfterCursor (m : Model) (h : ModelInv m) :
    ModelInv (deleteAfterCursor m) := by
  obtain ⟨h1, h2, _⟩ := h
  unfold deleteAfterCursor
  exact Inv_SetCursor _ _ (by simpa using h1) (by simpa using h2)

theorem Inv_mergeLineBelow (m : Model) (h : ModelInv m) :
    ModelInv (mergeLineBelow m m.row) := by
  obtain ⟨h1, h2, h3⟩ := h
  unfold mergeLineBelow
  split_ifs with hg
  · exact ⟨h1, h2, h3⟩
  · push_neg at hg
    have hlt : m.row + 2 ≤ m.value.length := by omega
    have hsetlen : (m.value.set m.row
        ((m.value.getD m.row []) ++ (m.value.getD (m.row + 1) []))).length =
        m.value.length := by simp
    refine ⟨?_, ?_, ?_⟩
    · simp only [List.length_append, List.length_take, List.length_drop, hsetlen]
      omega
    · simp only [List.length_append, List.length_take, List.length_drop, hsetlen]
      omega
    · show m.col ≤ (List.getD _ m.row []).length
      rw [List.getD_eq_getElem?_getD,
        List.getElem?_append_left (by simp only [List.length_take, hsetlen]; omega),
        List.getElem?_take_of_lt (by omega),
        List.getElem?_set_self (by omega)]
      simp only [Option.getD_some, List.length_append]
      have : m.col ≤ (m.value.getD m.row []).length := h3
      omega

theorem Inv_mergeLineAbove (m : Model) (h : ModelInv m) :
    ModelInv (mergeLineAbove m m.row) := by
  obtain ⟨h1, h2, h3⟩ := h
  unfold mergeLineAbove
  simp only []
  split_ifs with hg
  · exact ⟨h1, h2, h3⟩
  · have hrow : 1 ≤ m.row := by omega
    have hsetlen : (m.value.set (m.row - 1)
        ((m.value.getD (m.row - 1) []) ++ (m.value.getD m.row []))).length =
        m.value.length := by simp
    refine ⟨?_, ?_, ?_⟩
    · simp only [List.length_append, List.length_take, List.length_drop, hsetlen]
      omega
    · simp only [List.length_append, List.length_take, List.length_drop, hsetlen]
      omega
    · have hkey : ((List.take m.row (m.value.set (m.row - 1)
            ((m.value.getD (m.row - 1) []) ++ (m.value.getD m.row []))) ++
          List.drop (m.row + 1) (m.value.set (m.row - 1)
            ((m.value.getD (m.row - 1) []) ++ (m.value.getD m.row [])))).getD
            (m.row - 1) []) =
          (m.value.getD (m.row - 1) []) ++ (m.value.getD m.row []) := by
        rw [List.getD_eq_getElem?_getD,
          List.getElem?_append_left (by simp only [List.length_take, hsetlen]; omega),
          List.getElem?_take_of_lt (by omega),
          List.getElem?_set_self (by omega)]
        rfl
      show (m.value.getD (m.row - 1) []).length ≤
        ((List.take m.row (m.value.set (m.row - 1)
            ((m.value.getD (m.row - 1) []) ++ (m.value.getD m.row []))) ++
          List.drop (m.row + 1) (m.value.set (m.row - 1)
            ((m.value.getD (m.row - 1) []) ++ (m.value.getD m.row [])))).getD
          (m.row - 1) []).length
      rw [hkey]
      simp only [List.length_append]
      omega

theorem Inv_splitLine (m : Model) (h : ModelInv m) :
    ModelInv (splitLine m m.row m.col) := by
  obtain ⟨h1, h2, _⟩ := h
  unfold splitLine
  have hlen : ((m.value.take (m.row + 1) ++ m.value.drop m.row).set m.row
      ((m.value.getD m.row []).take m.col)).length = m.value.length + 1 := by
    simp only [List.length_set, List.length_append, List.length_take, List.length_drop]
    omega
  refine ⟨?_, ?_, Nat.zero_le _⟩
  · simp only [List.length_set, hlen]
    omega
  · simp only [List.length_set, hlen]
    omega

theorem Inv_deleteCharacterBackward (m : Model) (h : ModelInv m) :
    ModelInv (deleteCharacterBackward m) := by
  obtain ⟨h1, h2, _⟩ := h
  have h0 : ModelInv { m with col := clamp m.col 0 (lineAt m).length } :=
    ⟨h1, h2, clamp_le _ _⟩
  unfold deleteCharacterBackward
  simp only []
  split_ifs with hc hl hcol
  · exact Inv_mergeLineAbove _ h0
  · exact Inv_SetCursor _ _ (by simpa using h1) (by simpa using h2)
  · exact absurd (by omega : clamp m.col 0 (lineAt m).length = 0) hc
  · exact h0

theorem Inv_deleteCharacterForward (m : Model) (h : ModelInv m) :
    ModelInv (deleteCharacterForward m) := by
  obtain ⟨h1, h2, h3⟩ := h
  unfold deleteCharacterForward
  have hstep : ∀ m1 : Model, ModelInv m1 →
      ModelInv (if (lineAt m1).length ≤ m1.col then mergeLineBelow m1 m1.row else m1) := by
    intro m1 hm1
    split_ifs
    · exact Inv_mergeLineBelow _ hm1
    · exact hm1
  split_ifs with hcond
  · refine hstep _ ⟨by simpa using h1, by simpa using h2, ?_⟩
    show m.col ≤ (List.getD _ m.row []).length
    rw [getD_set_self _ _ _ _ (by omega)]
    simp only [List.length_append, List.length_take, List.length_drop]
    omega
  · exact hstep _ ⟨h1, h2, h3⟩

set_option maxHeartbeats 2000000 in
theorem dwlSkipSpaces_spec : ∀ n (m : Model), m.col ≤ n →
    (dwlSkipSpaces m).value = m.value ∧ (dwlSkipSpaces m).row = m.row ∧
      (dwlSkipSpaces m).col ≤ m.col := by
  intro n
  induction n with
  | zero =>
    intro m hm
    rw [dwlSkipSpaces]
    split_ifs with h1 h2
    · exact ⟨rfl, rfl, le_refl _⟩
    · exact absurd (by omega : m.col = 0) h2
    · exact ⟨rfl, rfl, le_refl _⟩
  | succ n ih =>
    intro m hm
    rw [dwlSkipSpaces]
    split_ifs with h1 h2
    · exact ⟨rfl, rfl, le_refl _⟩
    · have hcc : (SetCursor m (m.col - 1)).col = clamp (m.col - 1) 0 (lineAt m).length := rfl
      have hle : (SetCursor m (m.col - 1)).col ≤ m.col - 1 := by
        rw [hcc]
        exact clamp_le_self _ _
      obtain ⟨hv, hr, hcol⟩ := ih (SetCursor m (m.col - 1)) (by omega)
      exact ⟨hv, hr, by omega⟩
    · exact ⟨rfl, rfl, le_refl _⟩

set_option maxHeartbeats 2000000 in
theorem dwlSkipWord_spec : ∀ n (m : Model), m.col ≤ n →
    (dwlSkipWord m).value = m.value ∧ (dwlSkipWord m).row = m.row ∧
      ((dwlSkipWord m).col ≤ m.col ∨ (dwlSkipWord m).col ≤ (lineAt m).length) := by
  intro n
  induction n with
  | zero =>
    intro m hm
    rw [dwlSkipWord]
    split_ifs with h1 h2
    · exact ⟨rfl, rfl, Or.inl (le_refl _)⟩
    · exact absurd (by omega : m.col = 0) h1
    · exact absurd (by omega : m.col = 0) h1
  | succ n ih =>
    intro m hm
    rw [dwlSkipWord]
    split_ifs with h1 h2
    · exact ⟨rfl, rfl, Or.inl (le_refl _)⟩
    · have hcc : (SetCursor m (m.col - 1)).col = clamp (m.col - 1) 0 (lineAt m).length := rfl
      have hle : (SetCursor m (m.col - 1)).col ≤ m.col - 1 := by
        rw [hcc]
        exact clamp_le_self _ _
      obtain ⟨hv, hr, hcol⟩ := ih (SetCursor m (m.col - 1)) (by omega)
      refine ⟨hv, hr, ?_⟩
      rcases hcol with hc | hc
      · exact Or.inl (by omega)
      · right
        have hla : lineAt (SetCursor m (m.col - 1)) = lineAt m := rfl
        rw [hla] at hc
        exact hc
    · exact ⟨rfl, rfl, Or.inr (clamp_le _ _)⟩

theorem Inv_deleteWordLeft (m : Model) (h : ModelInv m) :
    ModelInv (deleteWordLeft m) := by
  obtain ⟨h1, h2, h3⟩ := h
  unfold deleteWordLeft
  simp only []
  split_ifs with hg hlen
  · exact ⟨h1, h2, h3⟩
  all_goals {
    obtain ⟨hv1, hr1, hc1⟩ :=
      dwlSkipSpaces_spec (SetCursor m (m.col - 1)).col (SetCursor m (m.col - 1)) (le_refl _)
    obtain ⟨hv2, hr2, hc2⟩ := dwlSkipWord_spec (dwlSkipSpaces (SetCursor m (m.col - 1))).col
      (dwlSkipSpaces (SetCursor m (m.col - 1))) (le_refl _)
    set m3 := dwlSkipWord (dwlSkipSpaces (SetCursor m (m.col - 1))) with hm3
    have hv3 : m3.value = m.value := by rw [hv2, hv1]; rfl
    have hr3 : m3.row = m.row := by rw [hr2, hr1]; rfl
    have hla : lineAt m3 = lineAt m := by
      unfold lineAt
      rw [hv3, hr3]
    have hccl : (SetCursor m (m.col - 1)).col ≤ (lineAt m).length := clamp_le _ _
    have hla1 : lineAt (dwlSkipSpaces (SetCursor m (m.col - 1))) = lineAt m := by
      unfold lineAt
      rw [hv1, hr1]
      rfl
    have hc3 : m3.col ≤ (lineAt m).length := by
      rcases hc2 with hc | hc
      · omega
      · rw [hla1] at hc
        exact hc
    refine ⟨by rw [List.length_set, hv3]; exact h1,
      by rw [List.length_set, hv3, hr3]; exact h2, ?_⟩
    show m3.col ≤ ((m3.value.set m3.row _).getD m3.row []).length
    rw [getD_set_self _ _ _ _ (by rw [hv3, hr3]; exact h2)]
    first
    | (rw [List.length_take, hla]; omega)
    | (rw [List.length_append, List.length_take, List.length_drop, hla]; omega)
  }

set_option maxHeartbeats 2000000 in
theorem dwrSkipSpaces_pres : ∀ n (m : Model), (lineAt m).length - m.col ≤ n →
    (dwrSkipSpaces m).value = m.value ∧ (dwrSkipSpaces m).row = m.row := by
  intro n
  induction n with
  | zero =>
    intro m hm
    rw [dwrSkipSpaces]
    split_ifs with h1 h2
    · exact absurd (by omega : ¬ m.col < (lineAt m).length) (by simpa using h1)
    · exact ⟨rfl, rfl⟩
    · exact ⟨rfl, rfl⟩
  | succ n ih =>
    intro m hm
    rw [dwrSkipSpaces]
    split_ifs with h1 h2
    · have hcc : (SetCursor m (m.col + 1)).col = clamp (m.col + 1) 0 (lineAt m).length := rfl
      have hla : lineAt (SetCursor m (m.col + 1)) = lineAt m := rfl
      have hge : m.col + 1 ≤ (SetCursor m (m.col + 1)).col := by
        rw [hcc]
        unfold clamp
        split_ifs <;> omega
      obtain ⟨hv, hr⟩ := ih (SetCursor m (m.col + 1)) (by rw [hla]; omega)
      exact ⟨hv, hr⟩
    · exact ⟨rfl, rfl⟩
    · exact ⟨rfl, rfl⟩

set_option maxHeartbeats 2000000 in
theorem dwrSkipWord_pres : ∀ n (m : Model), (lineAt m).length - m.col ≤ n →
    (dwrSkipWord m).value = m.value ∧ (dwrSkipWord m).row = m.row := by
  intro n
  induction n with
  | zero =>
    intro m hm
    rw [dwrSkipWord]
    split_ifs with h1 h2
    · omega
    · exact ⟨rfl, rfl⟩
    · exact ⟨rfl, rfl⟩
  | succ n ih =>
    intro m hm
    rw [dwrSkipWord]
    split_ifs with h1 h2
    · have hcc : (SetCursor m (m.col + 1)).col = clamp (m.col + 1) 0 (lineAt m).length := rfl
      have hla : lineAt (SetCursor m (m.col + 1)) = lineAt m := rfl
      have hge : m.col + 1 ≤ (SetCursor m (m.col + 1)).col := by
        rw [hcc]
        unfold clamp
        split_ifs <;> omega
      obtain ⟨hv, hr⟩ := ih (SetCursor m (m.col + 1)) (by rw [hla]; omega)
      exact ⟨hv, hr⟩
    · exact ⟨rfl, rfl⟩
    · exact ⟨rfl, rfl⟩

theorem Inv_deleteWordRight (m : Model) (h : ModelInv m) :
    ModelInv (deleteWordRight m) := by
  obtain ⟨h1, h2, h3⟩ := h
  unfold deleteWordRight
  simp only []
  split_ifs with hg hlen
  · exact ⟨h1, h2, h3⟩
  all_goals {
    obtain ⟨hv1, hr1⟩ := dwrSkipSpaces_pres ((lineAt m).length - m.col) m (le_refl _)
    obtain ⟨hv2, hr2⟩ := dwrSkipWord_pres
      ((lineAt (dwrSkipSpaces m)).length - (dwrSkipSpaces m).col) (dwrSkipSpaces m) (le_refl _)
    set m3 := dwrSkipWord (dwrSkipSpaces m) with hm3
    have hv3 : m3.value = m.value := by rw [hv2, hv1]
    have hr3 : m3.row = m.row := by rw [hr2, hr1]
    exact Inv_SetCursor _ _ (by rw [List.length_set, hv3]; exact h1)
      (by rw [List.length_set, hv3, hr3]; exact h2)
  }

theorem Inv_insertLines (m : Model) (lines : List (List Char)) (h : ModelInv m) :
    ModelInv (insertLines m lines) := by
  obtain ⟨h1, h2, h3⟩ := h
  unfold insertLines
  simp only []
  split_ifs with hq1 hq2
  · exact ⟨h1, h2, h3⟩
  · exact Inv_SetCursor _ _ (by simpa using h1) (by simpa using h2)
  · have hextra : 1 ≤ lines.tail.length := by
      rcases hx : lines.tail with _ | ⟨a, b⟩
      · rw [hx] at hq2
        simp at hq2
      · simp
    apply Inv_SetCursor
    · simp only [List.length_append, List.length_take, List.length_drop,
        List.length_dropLast, List.length_set, List.length_cons, List.length_nil]
      omega
    · simp only [List.length_append, List.length_take, List.length_drop,
        List.length_dropLast, List.length_set, List.length_cons, List.length_nil]
      omega

theorem Inv_insertRunes (m : Model) (input : List Char) (h : ModelInv m) :
    ModelInv (insertRunesFromUserInput m input) := by
  unfold insertRunesFromUserInput
  simp only []
  split_ifs
  · exact h
  all_goals exact Inv_insertLines _ _ h

/-! ## Claims -/

/-- C1, counterexample: wrapping the empty rune sequence at width 1 yields a
single sub-line containing one padding space, so undoing the wrap does not
reproduce the input. -/
theorem wrap_roundtrip_exact_fails : (wrapC [] 1).flatten ≠ ([] : List Char) := by
  decide

/-- C1 (amended): concatenating in order all visual sub-lines of
`wrap(s, maxWidth)` for `maxWidth ≥ 1` yields `s` with every whitespace
codepoint replaced by the plain space `' '`, followed by exactly one extra
trailing padding space appended by the final flush — not `s` itself. -/
theorem wrap_roundtrip_canonical (s : List Char) (w : Nat) (_hw : 1 ≤ w) :
    (wrapC s w).flatten = s.map (canonSpace goIsSpace ' ') ++ [' '] :=
  wrap_join goIsSpace displayWidth ' ' s w

theorem wrap_roundtrip_canonical_witness :
    1 ≤ 2 ∧ (wrapC "a b".toList 2).flatten =
      "a b".toList.map (canonSpace goIsSpace ' ') ++ [' '] :=
  ⟨by decide, wrap_roundtrip_canonical "a b".toList 2 (by decide)⟩

/-- C10, counterexample: on a rune sequence containing a non-breaking space
(U+00A0, a whitespace rune that is not the plain space), the concatenation of
the wrap output is not the input followed by one extra space — `wrap` emits
plain spaces in place of every whitespace rune. -/
theorem wrap_extra_space_exact_fails :
    (wrapC [' '] 1).flatten ≠ [' ', ' '] := by decide

/-- C10 (amended): for `maxWidth ≥ 1`, whenever every whitespace codepoint of
`s` is the plain space `' '`, the concatenation of the sub-lines of
`wrap(s, maxWidth)` equals `s` followed by exactly one extra trailing space
(the final flush unconditionally appends one padding space); for other
whitespace codepoints the output holds a plain space in their place. -/
theorem wrap_appends_one_space (s : List Char) (w : Nat) (_hw : 1 ≤ w)
    (h : ∀ c ∈ s, goIsSpace c = true → c = ' ') :
    (wrapC s w).flatten = s ++ [' '] := by
  rw [wrapC, wrap_join]
  congr 1
  have hc : ∀ c ∈ s, canonSpace goIsSpace ' ' c = c := by
    intro c hcm
    unfold canonSpace
    split_ifs with hs
    · exact (h c hcm hs).symm
    · rfl
  calc s.map (canonSpace goIsSpace ' ') = s.map id := List.map_congr_left hc
    _ = s := List.map_id s

theorem wrap_appends_one_space_witness :
    (1 ≤ 3 ∧ ∀ c ∈ "ab cd".toList, goIsSpace c = true → c = ' ') ∧
      (wrapC "ab cd".toList 3).flatten = "ab cd".toList ++ [' '] :=
  ⟨⟨by decide, by decide⟩,
    wrap_appends_one_space "ab cd".toList 3 (by decide) (by decide)⟩

/-- C2: for `maxWidth ≥ 1`, every visual sub-line produced by `wrap` has
display width at most `maxWidth`, except a sub-line holding a single
unsplittable word — one containing no whitespace codepoint at all — which is
allowed to overflow alone on its own line. -/
theorem wrap_width_bound (s : List Char) (w : Nat) (hw : 1 ≤ w) :
    ∀ l2 ∈ wrapC s w, strWidthC l2 ≤ w ∨ ∀ c ∈ l2, goIsSpace c = false :=
  fun l2 hl => wrap_lineOk goIsSpace displayWidth ' ' w hw rfl s l2 hl

theorem wrap_width_bound_witness :
    1 ≤ 2 ∧ ∀ l2 ∈ wrapC "你好 ab".toList 2,
      strWidthC l2 ≤ 2 ∨ ∀ c ∈ l2, goIsSpace c = false :=
  ⟨by decide, wrap_width_bound "你好 ab".toList 2 (by decide)⟩

/-- C8, counterexample: for `maxWidth = 1` the wrap of the empty rune
sequence is one sub-line holding a single padding space, not one empty
sub-line. -/
theorem wrap_empty_line_not_empty : wrapC [] 1 ≠ [[]] := by decide

/-- C8 (amended): for every `maxWidth ≥ 1`, `wrap` applied to the empty rune
sequence yields exactly one visual sub-line, and that sub-line consists of
exactly one padding space (the extra space of the final flush), not of no
codepoints. -/
theorem wrap_empty (w : Nat) (hw : 1 ≤ w) : wrapC [] w = [[' ']] := by
  unfold wrapC wrap wrapFlush
  rw [List.foldl_nil]
  split_ifs with h
  · have h0 : w ≤ 0 := by simpa [strWidth] using h
    omega
  · rfl

theorem wrap_empty_witness : 1 ≤ 1 ∧ wrapC [] 1 = [[' ']] :=
  ⟨by decide, wrap_empty 1 (by decide)⟩

/-- C4, counterexample: a `MemoCache` of capacity 0 accepts one entry — Go
skips the eviction when `list.Back()` is `nil` but still pushes the new
entry — so after one `Set` the size exceeds the capacity. -/
theorem cache_size_exceeds_zero_capacity :
    ¬ MemoCacheSize (runOps [CacheOp.set 1 1] (NewMemoCache Nat Nat 0)) ≤
        MemoCacheCapacity (NewMemoCache Nat Nat 0) := by decide

/-- C4 (amended): for every capacity `C ≥ 1` and every finite sequence of
`Get`/`Set` operations from the empty cache: a `Get(k)` hit returns the value
of the most recent `Set` for `k`; if `k` was never `Set`, `Get(k)` misses;
and the size never exceeds the capacity.  (For capacity 0 the size bound
fails, see the counterexample.) -/
theorem cache_correctness {K V : Type} [DecidableEq K]
    (ops : List (CacheOp K V)) (C : Nat) (hC : 1 ≤ C) (k : K) :
    (∀ v, (MemoCacheGet (runOps ops (NewMemoCache K V C)) k).1 = some v →
        lastSet none ops k = some v) ∧
      (lastSet none ops k = none →
        (MemoCacheGet (runOps ops (NewMemoCache K V C)) k).1 = none) ∧
      MemoCacheSize (runOps ops (NewMemoCache K V C)) ≤
        MemoCacheCapacity (NewMemoCache K V C) := by
  have hinv : CacheInv (fun _ : K => (none : Option V)) (NewMemoCache K V C) := by
    refine ⟨by simp [NewMemoCache], by simp [NewMemoCache], by simp [NewMemoCache]⟩
  obtain ⟨hv, hnd, hlen⟩ := runOps_inv ops hinv
  have hcap : (runOps ops (NewMemoCache K V C)).capacity = C :=
    runOps_capacity ops (NewMemoCache K V C)
  refine ⟨?_, ?_, ?_⟩
  · intro v hget
    rw [MemoCacheGet_fst] at hget
    exact hv _ (lookupKey_mem hget)
  · intro hnone
    rw [MemoCacheGet_fst]
    cases hlk : lookupKey (runOps ops (NewMemoCache K V C)).entries k with
    | none => rfl
    | some v =>
      have hy : lastSet (none : Option V) ops k = some v := hv _ (lookupKey_mem hlk)
      rw [hnone] at hy
      cases hy
  · unfold MemoCacheSize MemoCacheCapacity
    rw [hcap] at hlen
    show _ ≤ (NewMemoCache K V C).capacity
    have : (NewMemoCache K V C).capacity = C := rfl
    rw [this]
    omega

theorem cache_correctness_witness :
    1 ≤ 2 ∧
      ((∀ v, (MemoCacheGet (runOps [CacheOp.set 5 7, CacheOp.get 5,
            CacheOp.set 6 8] (NewMemoCache Nat Nat 2)) 5).1 = some v →
          lastSet none [CacheOp.set 5 7, CacheOp.get 5, CacheOp.set 6 8] 5 = some v) ∧
        (lastSet none [CacheOp.set 5 7, CacheOp.get 5, CacheOp.set 6 8] 5 = none →
          (MemoCacheGet (runOps [CacheOp.set 5 7, CacheOp.get 5,
            CacheOp.set 6 8] (NewMemoCache Nat Nat 2)) 5).1 = none) ∧
        MemoCacheSize (runOps [CacheOp.set 5 7, CacheOp.get 5,
            CacheOp.set 6 8] (NewMemoCache Nat Nat 2)) ≤
          MemoCacheCapacity (NewMemoCache Nat Nat 2)) :=
  ⟨by decide,
    cache_correctness [CacheOp.set 5 7, CacheOp.get 5, CacheOp.set 6 8] 2 (by decide) 5⟩

/-- C5: with capacity `C ≥ 1`, after `Set`ting the distinct keys `1..C+1` in
order into the empty cache, then `Get 1`, the final `Set` of the fresh key
`C+2` evicts exactly the back-most entry of the recency order, which is key 2
(key 1 was already evicted when key `C+1` was inserted, so the `Get` is a
miss): key 2 is present before and absent after, every other present key
survives, and the new key is present. -/
theorem lru_eviction_scenario (C : Nat) (hC : 1 ≤ C) :
    (lruScenarioAfterGet C).entries.getLast?.map Prod.fst = some 2 ∧
      lookupKey (lruScenarioAfterGet C).entries 2 = some 2 ∧
      (lruScenarioFinal C).entries =
        (C + 2, C + 2) :: (lruScenarioAfterGet C).entries.dropLast ∧
      lookupKey (lruScenarioFinal C).entries 2 = none ∧
      (∀ k v, k ≠ 2 → lookupKey (lruScenarioAfterGet C).entries k = some v →
        lookupKey (lruScenarioFinal C).entries k = some v) ∧
      lookupKey (lruScenarioFinal C).entries (C + 2) = some (C + 2) := by
  obtain ⟨hent, hcap⟩ := scenario_afterGet C hC
  obtain ⟨hfin1, hfin2⟩ := scenario_final_entries C hC
  refine ⟨?_, ?_, hfin1, ?_, ?_, ?_⟩
  · obtain ⟨D, rfl⟩ : ∃ D, C = D + 1 := ⟨C - 1, by omega⟩
    rw [hent, descPairs_getLast]
    rfl
  · rw [hent, descPairs_lookup, if_pos (by omega)]
  · rw [hfin2, descPairs_lookup, if_neg (by omega)]
  · intro k v hk hlk
    rw [hent, descPairs_lookup] at hlk
    rw [hfin2, descPairs_lookup]
    split_ifs at hlk with h1
    injection hlk with hv
    subst hv
    rw [if_pos (by omega)]
  · rw [hfin2, descPairs_lookup, if_pos (by omega)]

theorem lru_eviction_scenario_witness :
    1 ≤ 1 ∧
      ((lruScenarioAfterGet 1).entries.getLast?.map Prod.fst = some 2 ∧
        lookupKey (lruScenarioAfterGet 1).entries 2 = some 2 ∧
        (lruScenarioFinal 1).entries =
          (1 + 2, 1 + 2) :: (lruScenarioAfterGet 1).entries.dropLast ∧
        lookupKey (lruScenarioFinal 1).entries 2 = none ∧
        (∀ k v, k ≠ 2 → lookupKey (lruScenarioAfterGet 1).entries k = some v →
          lookupKey (lruScenarioFinal 1).entries k = some v) ∧
        lookupKey (lruScenarioFinal 1).entries (1 + 2) = some (1 + 2)) :=
  ⟨by decide, lru_eviction_scenario 1 (by decide)⟩

/-- The C3 scenario buffer: "Hello" / "World" / "This is a long line.", the
cursor at the end of the third line, display width 40 (wide enough that no
line soft-wraps). -/
def scenarioC3 : Model :=
  { value := ["Hello".toList, "World".toList, "This is a long line.".toList],
    row := 2, col := 20, lastCharOffset := 0, width := 40, charLimit := 0 }

/-- C3: one `CursorUp` lands at row 1 column 5 (clamped), a second at row 0
column 5, two `CursorDown`s return to row 2 column 20 (the remembered
display offset, not the clamped 5); in the variant a `characterLeft` after
the first `CursorUp` moves to column 4 and resets the memory, so `CursorDown`
lands at row 2 column 4. -/
theorem cursor_vertical_memory_scenario :
    ((CursorUp scenarioC3).row = 1 ∧ (CursorUp scenarioC3).col = 5) ∧
      ((CursorUp (CursorUp scenarioC3)).row = 0 ∧
        (CursorUp (CursorUp scenarioC3)).col = 5) ∧
      ((CursorDown (CursorDown (CursorUp (CursorUp scenarioC3)))).row = 2 ∧
        (CursorDown (CursorDown (CursorUp (CursorUp scenarioC3)))).col = 20) ∧
      ((characterLeft false (CursorUp scenarioC3)).col = 4 ∧
        (CursorDown (characterLeft false (CursorUp scenarioC3))).row = 2 ∧
        (CursorDown (characterLeft false (CursorUp scenarioC3))).col = 4) := by
  decide

/-- The C7 scenario buffer: "你好你好" (four double-width glyphs) over
"Hello", cursor at codepoint offset 2 of the wide line, display width 20. -/
def scenarioC7 : Model :=
  { value := ["你好你好".toList, "Hello".toList], row := 0, col := 2,
    lastCharOffset := 0, width := 20, charLimit := 0 }

/-- C7: the wide line has display width 8 and "Hello" has 5; at codepoint
offset 2 of the wide line `LineInfo` reports display-column offset
(`CharOffset`) 4, and one `CursorDown` lands on "Hello" at codepoint offset 4
(display column 4 converted back through per-glyph widths). -/
theorem wide_glyph_offset_scenario :
    strWidthC "你好你好".toList = 8 ∧ strWidthC "Hello".toList = 5 ∧
      (lineInfo scenarioC7).CharOffset = 4 ∧
      (CursorDown scenarioC7).row = 1 ∧ (CursorDown scenarioC7).col = 4 := by
  decide

/-- C6: every mutating buffer operation — rune insertion, character and word
deletions (both directions), line merge below/above, line split, reset —
preserves the invariant: at least one line in the buffer, cursor row a valid
index, cursor column at most the current line's length.  The merge/split
operations are applied at the cursor, as every call site does. -/
theorem buffer_invariant_preserved (m : Model) (rs : List Char) (h : ModelInv m) :
    ModelInv (insertRunesFromUserInput m rs) ∧
      ModelInv (deleteBeforeCursor m) ∧
      ModelInv (deleteAfterCursor m) ∧
      ModelInv (deleteCharacterBackward m) ∧
      ModelInv (deleteCharacterForward m) ∧
      ModelInv (deleteWordLeft m) ∧
      ModelInv (deleteWordRight m) ∧
      ModelInv (mergeLineBelow m m.row) ∧
      ModelInv (mergeLineAbove m m.row) ∧
      ModelInv (splitLine m m.row m.col) ∧
      ModelInv (Reset m) :=
  ⟨Inv_insertRunes m rs h, Inv_deleteBeforeCursor m h, Inv_deleteAfterCursor m h,
    Inv_deleteCharacterBackward m h, Inv_deleteCharacterForward m h,
    Inv_deleteWordLeft m h, Inv_deleteWordRight m h, Inv_mergeLineBelow m h,
    Inv_mergeLineAbove m h, Inv_splitLine m h, Inv_Reset m⟩

/-- A small concrete state for the C6 witness: one line "ab", cursor at
column 1. -/
def witnessModel : Model :=
  { value := [['a', 'b']], row := 0, col := 1, lastCharOffset := 0,
    width := 40, charLimit := 0 }

theorem buffer_invariant_preserved_witness :
    ModelInv witnessModel ∧
      (ModelInv (insertRunesFromUserInput witnessModel "x\ny".toList) ∧
        ModelInv (deleteBeforeCursor witnessModel) ∧
        ModelInv (deleteAfterCursor witnessModel) ∧
        ModelInv (deleteCharacterBackward witnessModel) ∧
        ModelInv (deleteCharacterForward witnessModel) ∧
        ModelInv (deleteWordLeft witnessModel) ∧
        ModelInv (deleteWordRight witnessModel) ∧
        ModelInv (mergeLineBelow witnessModel witnessModel.row) ∧
        ModelInv (mergeLineAbove witnessModel witnessModel.row) ∧
        ModelInv (splitLine witnessModel witnessModel.row witnessModel.col) ∧
        ModelInv (Reset witnessModel)) :=
  ⟨by decide, buffer_invariant_preserved witnessModel "x\ny".toList (by decide)⟩

/-- C9 (against the claim): on the freshly created textarea — a single empty
line with the cursor at the origin, a reachable state — the scanning loop of
`wordLeft` never reaches its exit condition: `characterLeft` cannot move (row
and column are 0), the loop state is a fixpoint, and the exit test
`col < len(line) ∧ ¬IsSpace(line[col])` is false on an empty line, so
`wordLeft` loops forever however much fuel it is given. -/
theorem wordLeft_diverges_on_initial_model :
    ∀ fuel : Nat, wordLeftLoop fuel initialModel = none := by
  have hfix : characterLeft true initialModel = initialModel := by decide
  intro fuel
  induction fuel with
  | zero => rfl
  | succ n ih =>
    rw [wordLeftLoop]
    simp only [hfix]
    rw [if_neg (by decide)]
    exact ih

end Bubbles
